import Mathlib

/-
Verification development for the field path optimizer (src/app.py).

The program loads a field polygon, and for every candidate angle in
np.arange(0, 180, 0.5) rotates the field, generates horizontal sweep lines
spaced by machine_width over the rotated vertical extent plus a two-width
margin, clips each line against the rotated field, counts the resulting pass
segments, and keeps the angle with the strictly smallest count.  A separate
block scores the user's current heading, and small helpers convert angles to
compass headings and labels.

The embedding below translates those pieces over exact rationals:
  * ClippedSeg / pass_count   - the result classification and counting loop
                                (app.py lines 99-106 and 132-139);
  * sweepAux / sweep_lines    - the while loop generating sweep-line heights
                                (app.py lines 91-95 and 123-127);
  * clipRect / eval_passes    - the clip-and-count pipeline instantiated for an
                                axis-aligned rectangular field;
  * scanStep / scanBest       - the best-angle selection fold (lines 108-111);
  * pyMod / heading helpers   - the heading conversions (lines 113-114, 144-147);
  * rotatePt / finalLine      - a set-level model of rotation and clipping used
                                for the returned swath lines (line 115).
-/

/-- Classification of the result of intersecting one sweep line with the field
polygon, as the code inspects it at app.py lines 99-106: an empty geometry, a
degenerate point, a single `LineString`, or a `MultiLineString` of `n` parts. -/
inductive ClippedSeg where
  | empty : ClippedSeg
  | point : ClippedSeg
  | single : ClippedSeg
  | multi : ℕ → ClippedSeg
deriving DecidableEq

/-- The `is_empty` test on a clip result (shapely's `.is_empty`). -/
def ClippedSeg.isEmpty : ClippedSeg → Bool
  | ClippedSeg.empty => true
  | _ => false

/-- The pass-counting loop of app.py lines 99-106: skip empty results, a
`LineString` adds 1, a `MultiLineString` adds its number of parts, and any
other geometry (a degenerate `Point` matches no `isinstance` branch) adds 0. -/
def pass_count : List ClippedSeg → ℕ
  | [] => 0
  | g :: rest =>
    (match g with
     | ClippedSeg.empty => 0
     | ClippedSeg.single => 1
     | ClippedSeg.multi n => n
     | ClippedSeg.point => 0) + pass_count rest

/-- The spec's per-segment contribution map (spec section 4.3): Empty
contributes 0, SingleSegment 1, MultiSegment(n) contributes n, and a
degenerate point is treated as Empty. -/
def segContrib : ClippedSeg → ℕ
  | ClippedSeg.empty => 0
  | ClippedSeg.point => 0
  | ClippedSeg.single => 1
  | ClippedSeg.multi n => n

/-- The sweep-line while loop of app.py lines 92-95 (and 124-127):
`while y <= stop: emit y; y += s`, with explicit fuel so the model is total.
A run that exits because the loop guard failed returns before exhausting its
fuel; a run that exhausts the fuel models a loop still going. -/
def sweepAux (s stop : ℚ) : ℕ → ℚ → List ℚ
  | 0, _ => []
  | fuel + 1, y => if y ≤ stop then y :: sweepAux s stop fuel (y + s) else []

/-- Number of iterations the sweep loop performs from height `y` when the
spacing `s` is positive: zero when the guard fails at once, otherwise
`⌊(stop - y)/s⌋ + 1`. -/
def stepCount (s stop y : ℚ) : ℕ :=
  if y ≤ stop then (⌊(stop - y) / s⌋ + 1).toNat else 0

/-- Sweep-line heights for a rotated vertical extent `[yMin, yMax]` and
spacing `s` (app.py lines 91-95): start at `yMin - 2*s` and step by `s` while
`y ≤ yMax + 2*s`.  The fuel `stepCount … + 1` is enough for the loop to reach
its exit condition whenever `s > 0` (proved in `sweepAux_eq_range`). -/
def sweep_lines (yMin yMax s : ℚ) : List ℚ :=
  sweepAux s (yMax + 2 * s) (stepCount s (yMax + 2 * s) (yMin - 2 * s) + 1) (yMin - 2 * s)

/-- An axis-aligned rectangular field polygon, the concrete field shape used by
the spec's test properties.  `x0 ≤ x1` and `y0 ≤ y1` are assumed at use sites. -/
structure Rect where
  x0 : ℚ
  x1 : ℚ
  y0 : ℚ
  y1 : ℚ
deriving DecidableEq

/-- Modelled from the spec: the external GeometryKernel's line/polygon
intersection (spec sections 2 and 4.2), instantiated for a nondegenerate
axis-aligned rectangle and the horizontal sweep segment of app.py line 93,
whose x-span (centroid x ± 1e5) covers the rectangle as the spec requires of
the sweep line's x-span.  A height inside the vertical extent (boundary edges
included, since a rectangle's top and bottom edges are horizontal segments of
positive length) yields a single segment; any other height yields nothing. -/
def clipRect (R : Rect) (y : ℚ) : ClippedSeg :=
  if R.y0 ≤ y ∧ y ≤ R.y1 then ClippedSeg.single else ClippedSeg.empty

/-- The clip list comprehension of app.py line 97 (and 129-130): intersect each
sweep line with the (rotated) field and keep only the non-empty results. -/
def clipped_of (R : Rect) (ys : List ℚ) : List ClippedSeg :=
  (ys.map (clipRect R)).filter (fun g => ! g.isEmpty)

/-- The per-angle sweep-clip-count pipeline of app.py lines 90-106, for a
rotated field that is the rectangle `R` (its vertical bounds are `R.y0, R.y1`). -/
def eval_passes (R : Rect) (s : ℚ) : ℕ :=
  pass_count (clipped_of R (sweep_lines R.y0 R.y1 s))

/-- Modelled from the spec: the external GeometryKernel's rotate-about-point,
at the 90-degree rotation used by the current-heading block when
`current_heading = 0` (adjusted angle 0 + 90, app.py line 118).  Rotating an
axis-aligned rectangle by 90 degrees about its own centroid swaps its
half-extents. -/
def rotRect90 (R : Rect) : Rect :=
  { x0 := (R.x0 + R.x1) / 2 - (R.y1 - R.y0) / 2
    x1 := (R.x0 + R.x1) / 2 + (R.y1 - R.y0) / 2
    y0 := (R.y0 + R.y1) / 2 - (R.x1 - R.x0) / 2
    y1 := (R.y0 + R.y1) / 2 + (R.x1 - R.x0) / 2 }

/-- The current-heading evaluation of app.py lines 117-139 for
`current_heading = 0`: rotate the field by the adjusted angle 0 + 90 = 90
degrees about its centroid, then run the same sweep-clip-count block as the
optimizer loop (lines 123-139 duplicate lines 90-106 verbatim, which is
`eval_passes`). -/
def current_passes (R : Rect) (w : ℚ) : ℕ :=
  eval_passes (rotRect90 R) w

/-- The square field of side 40 from the spec's current-heading test. -/
def square40 : Rect := { x0 := 0, x1 := 40, y0 := 0, y1 := 40 }

/-- One step of the best-angle selection at app.py lines 108-111: the recorded
best starts as `None` with `best_pass_count = inf`, and is replaced exactly
when the candidate's count is strictly smaller than the best so far. -/
def scanStep (f : ℚ → ℕ) (st : Option (ℚ × ℕ)) (a : ℚ) : Option (ℚ × ℕ) :=
  match st with
  | none => some (a, f a)
  | some (b, bc) => if f a < bc then some (a, f a) else some (b, bc)

/-- The angle scan of app.py lines 85-111, abstracted over the pass count
`f a` that the sweep-clip-count block computes at angle `a`.  The result is
`none` only when the angle list is empty; otherwise it is the recorded
`(best_angle, best_pass_count)`. -/
def scanBest (angles : List ℚ) (f : ℚ → ℕ) : Option (ℚ × ℕ) :=
  angles.foldl (scanStep f) none

/-- The candidate angle list `np.arange(0, 180, 0.5)` of app.py line 80. -/
def anglesList : List ℚ :=
  (List.range 360).map (fun i => (i : ℚ) * (1 / 2))

/-- Python's `%` on reals with a positive modulus, as used at app.py
lines 113-114 and 146: `x % m = x - m * ⌊x / m⌋`, always in `[0, m)`. -/
def pyMod (x m : ℚ) : ℚ := x - m * ⌊x / m⌋

/-- The forward heading `(best_angle - 90) % 360` of app.py line 113. -/
def optimized_heading_forward (best_angle : ℚ) : ℚ := pyMod (best_angle - 90) 360

/-- The reverse heading `(optimized_heading_forward + 180) % 360` of app.py
line 114. -/
def optimized_heading_reverse (best_angle : ℚ) : ℚ :=
  pyMod (optimized_heading_forward best_angle + 180) 360

/-- The nine-entry compass table of app.py line 145. -/
def dirs : List String := ["N", "NE", "E", "SE", "S", "SW", "W", "NW", "N"]

/-- The index computation `int((deg % 360) / 45 + 0.5)` of app.py line 146.
Python's `int()` truncates toward zero, which on the nonnegative argument
`(deg % 360)/45 + 0.5 ≥ 1/2` coincides with the floor. -/
def headingIx (deg : ℚ) : ℤ := ⌊pyMod deg 360 / 45 + 1 / 2⌋

/-- The lookup `dirs[ix]` of app.py line 147; `none` models Python's
`IndexError` on an out-of-range index. -/
def heading_label (deg : ℚ) : Option String := dirs.get? (headingIx deg).toNat

/-- Shapely's `rotate(geom, a, origin=o)` on a single point, with the angle
represented by the coefficient pair `(c, s) = (cos a, sin a)` exactly as
`shapely.affinity.rotate` uses them: the code computes these trigonometric
coefficients numerically, so the pair is kept free and the exactness condition
`c^2 + s^2 = 1` is an explicit hypothesis where it matters. -/
def rotatePt (c s : ℚ) (o p : ℚ × ℚ) : ℚ × ℚ :=
  (o.1 + (c * (p.1 - o.1) - s * (p.2 - o.2)), o.2 + (s * (p.1 - o.1) + c * (p.2 - o.2)))

/-- The horizontal sweep segment of app.py line 93,
`LineString([(cx - 1e5, y), (cx + 1e5, y)])`, as a point set. -/
def lineSeg (cx y : ℚ) : Set (ℚ × ℚ) :=
  {p : ℚ × ℚ | p.2 = y ∧ cx - 100000 ≤ p.1 ∧ p.1 ≤ cx + 100000}

/-- Rotation of a point set by the coefficient pair `(c, s)` about `o`
(shapely's `rotate` applied to a geometry). -/
def rotSet (c s : ℚ) (o : ℚ × ℚ) (A : Set (ℚ × ℚ)) : Set (ℚ × ℚ) :=
  Set.image (rotatePt c s o) A

/-- One surviving clipped segment of app.py line 97: the intersection of a
sweep line with the rotated field, as a point set. -/
def clippedSet (c s : ℚ) (o : ℚ × ℚ) (F : Set (ℚ × ℚ)) (cx y : ℚ) : Set (ℚ × ℚ) :=
  lineSeg cx y ∩ rotSet c s o F

/-- The returned swath line of app.py line 115: the clipped segment rotated
back by `-best_angle` (the back-rotation reuses the same coefficients with the
sine negated, as `cos(-a) = cos a` and `sin(-a) = -sin a`).  No further
operation is applied to it before it is returned. -/
def finalLine (c s : ℚ) (o : ℚ × ℚ) (F : Set (ℚ × ℚ)) (cx y : ℚ) : Set (ℚ × ℚ) :=
  rotSet c (-s) o (clippedSet c s o F cx y)

/-- Modelled from the spec: step 6 of spec section 4.4, which is absent from
the code — "Re-clip each rotated-back segment against the original, unrotated
field".  Clipping is intersection with the original field polygon. -/
def finalLineReclipped (c s : ℚ) (o : ℚ × ℚ) (F : Set (ℚ × ℚ)) (cx y : ℚ) : Set (ℚ × ℚ) :=
  finalLine c s o F cx y ∩ F

/-- A concrete 20 by 20 field polygon centred at the origin, used as input for
the counterexamples. -/
def fieldRect : Set (ℚ × ℚ) :=
  {p : ℚ × ℚ | -10 ≤ p.1 ∧ p.1 ≤ 10 ∧ -10 ≤ p.2 ∧ p.2 ≤ 10}

/- ------------------------------------------------------------------ -/
/- Helper lemmas.                                                      -/
/- ------------------------------------------------------------------ -/

/-- With positive spacing the sweep loop terminates: given at least
`stepCount` fuel it runs exactly `stepCount` iterations and produces the
arithmetic progression starting at `y` with step `s`. -/
lemma sweepAux_eq_range (s stop : ℚ) (hs : 0 < s) :
    ∀ (fuel : ℕ) (y : ℚ), stepCount s stop y ≤ fuel →
      sweepAux s stop fuel y =
        (List.range (stepCount s stop y)).map (fun i : ℕ => y + (i : ℚ) * s) := by
  intro fuel
  induction fuel with
  | zero =>
    intro y h
    have h0 : stepCount s stop y = 0 := Nat.le_zero.mp h
    simp [sweepAux, h0]
  | succ f ih =>
    intro y h
    by_cases hy : y ≤ stop
    · have hd0 : (0:ℤ) ≤ ⌊(stop - y) / s⌋ :=
        Int.floor_nonneg.mpr (div_nonneg (by linarith) hs.le)
      have hsc : stepCount s stop y = (⌊(stop - y) / s⌋).toNat + 1 := by
        simp only [stepCount, if_pos hy]
        omega
      by_cases hy2 : y + s ≤ stop
      · have hsc2 : stepCount s stop (y + s) = (⌊(stop - y) / s⌋).toNat := by
          simp only [stepCount, if_pos hy2]
          have hdiv : (stop - (y + s)) / s = (stop - y) / s - 1 := by
            field_simp
            ring
          rw [hdiv, Int.floor_sub_one]
          have hd1 : (1:ℤ) ≤ ⌊(stop - y) / s⌋ := by
            apply Int.le_floor.mpr
            rw [le_div_iff₀ hs]
            push_cast
            linarith
          omega
        have hf : stepCount s stop (y + s) ≤ f := by omega
        simp only [sweepAux, if_pos hy]
        rw [ih (y + s) hf, hsc, hsc2, List.range_succ_eq_map]
        simp only [List.map_cons, List.map_map]
        congr 1
        · push_cast
          ring
        · apply List.map_congr_left
          intro i _
          simp only [Function.comp_apply]
          push_cast
          ring
      · have hd00 : ⌊(stop - y) / s⌋ = 0 := by
          apply Int.floor_eq_zero_iff.mpr
          constructor
          · exact div_nonneg (by linarith) hs.le
          · rw [div_lt_one hs]
            linarith
        have hsc2 : stepCount s stop (y + s) = 0 := by
          simp [stepCount, hy2]
        simp only [sweepAux, if_pos hy]
        rw [ih (y + s) (by omega), hsc, hsc2, hd00]
        norm_num [List.range_succ]
    · have h0 : stepCount s stop y = 0 := by simp [stepCount, hy]
      simp [sweepAux, hy, h0]

/-- Closed form of `sweep_lines` for positive spacing. -/
lemma sweep_lines_eq (yMin yMax s : ℚ) (hs : 0 < s) :
    sweep_lines yMin yMax s =
      (List.range (stepCount s (yMax + 2 * s) (yMin - 2 * s))).map
        (fun i : ℕ => (yMin - 2 * s) + (i : ℚ) * s) :=
  sweepAux_eq_range s (yMax + 2 * s) hs _ _ (Nat.le_succ _)

/-- The sweep over `[yMin - 2s, yMax + 2s]` runs `⌊(yMax - yMin)/s⌋ + 5`
iterations. -/
lemma stepCount_start (yMin yMax s : ℚ) (hs : 0 < s) (hy : yMin ≤ yMax) :
    stepCount s (yMax + 2 * s) (yMin - 2 * s) = (⌊(yMax - yMin) / s⌋).toNat + 5 := by
  have hle : yMin - 2 * s ≤ yMax + 2 * s := by linarith
  simp only [stepCount, if_pos hle]
  have hdiv : (yMax + 2 * s - (yMin - 2 * s)) / s = (yMax - yMin) / s + 4 := by
    field_simp
    ring
  rw [hdiv]
  have h4 : ⌊(yMax - yMin) / s + (4:ℚ)⌋ = ⌊(yMax - yMin) / s⌋ + 4 := by
    exact_mod_cast Int.floor_add_int ((yMax - yMin) / s) 4
  rw [h4]
  have h0 : (0:ℤ) ≤ ⌊(yMax - yMin) / s⌋ :=
    Int.floor_nonneg.mpr (div_nonneg (by linarith) hs.le)
  omega

/-- Counting passes over the filtered clip results is counting the sweep
heights that land inside the rectangle's vertical extent. -/
lemma pass_count_clipped (R : Rect) (ys : List ℚ) :
    pass_count (clipped_of R ys) = ys.countP (fun y => decide (R.y0 ≤ y ∧ y ≤ R.y1)) := by
  induction ys with
  | nil => rfl
  | cons y t ih =>
    by_cases hc : R.y0 ≤ y ∧ y ≤ R.y1
    · have hstep : clipped_of R (y :: t) = ClippedSeg.single :: clipped_of R t := by
        simp [clipped_of, clipRect, hc, ClippedSeg.isEmpty]
      rw [hstep, List.countP_cons]
      simp only [pass_count, ih, hc, decide_eq_true_eq]
      simp [hc]
      omega
    · have hstep : clipped_of R (y :: t) = clipped_of R t := by
        simp [clipped_of, clipRect, hc, ClippedSeg.isEmpty]
      rw [hstep, List.countP_cons]
      simp [ih, hc]

/-- Counting the members of `range n` lying in the interval `[a, b]`. -/
lemma countP_range_min (a b : ℕ) :
    ∀ n : ℕ, (List.range n).countP (fun i => decide (a ≤ i ∧ i ≤ b)) =
      min (b + 1) n - min a n := by
  intro n
  induction n with
  | zero => simp
  | succ n ih =>
    rw [List.range_succ, List.countP_append, ih]
    by_cases h1 : a ≤ n
    · by_cases h2 : n ≤ b
      · simp [h1, h2, List.countP_cons]
        omega
      · simp [h1, h2, List.countP_cons]
        omega
    · simp [h1, List.countP_cons]
      omega

/-- Closed formula for the pipeline on a rectangle: the pass count is
`⌊(height)/spacing⌋ + 1`, the number of sweep heights inside the extent. -/
lemma eval_passes_eq (R : Rect) (s : ℚ) (hs : 0 < s) (hR : R.y0 ≤ R.y1) :
    eval_passes R s = (⌊(R.y1 - R.y0) / s⌋).toNat + 1 := by
  have hK0 : (0:ℤ) ≤ ⌊(R.y1 - R.y0) / s⌋ :=
    Int.floor_nonneg.mpr (div_nonneg (by linarith) hs.le)
  rw [eval_passes, pass_count_clipped, sweep_lines_eq R.y0 R.y1 s hs,
    stepCount_start R.y0 R.y1 s hs hR, List.countP_map]
  have hcong : ∀ i ∈ List.range ((⌊(R.y1 - R.y0) / s⌋).toNat + 5),
      (((fun y => decide (R.y0 ≤ y ∧ y ≤ R.y1)) ∘ fun i : ℕ => R.y0 - 2 * s + (i : ℚ) * s) i = true ↔
        (fun i : ℕ => decide (2 ≤ i ∧ i ≤ (⌊(R.y1 - R.y0) / s⌋).toNat + 2)) i = true) := by
    intro i _
    simp only [Function.comp_apply, decide_eq_true_eq]
    constructor
    · rintro ⟨hl, hr⟩
      constructor
      · have h3 : (2:ℚ) ≤ (i:ℚ) := le_of_mul_le_mul_right (by linarith) hs
        exact_mod_cast h3
      · have h3 : (i:ℚ) ≤ ((R.y1 - R.y0) + 2 * s) / s := by
          rw [le_div_iff₀ hs]
          linarith
        have h4 : ((R.y1 - R.y0) + 2 * s) / s = (R.y1 - R.y0) / s + 2 := by
          field_simp
        have h5 : (i:ℤ) ≤ ⌊(R.y1 - R.y0) / s + (2:ℚ)⌋ := by
          apply Int.le_floor.mpr
          rw [← h4]
          push_cast
          exact h3
        have h6 : ⌊(R.y1 - R.y0) / s + (2:ℚ)⌋ = ⌊(R.y1 - R.y0) / s⌋ + 2 := by
          exact_mod_cast Int.floor_add_int ((R.y1 - R.y0) / s) 2
        rw [h6] at h5
        omega
    · rintro ⟨hl, hr⟩
      have hl2 : (2:ℚ) ≤ (i:ℚ) := by exact_mod_cast hl
      constructor
      · nlinarith
      · have h5 : (i:ℤ) ≤ ⌊(R.y1 - R.y0) / s⌋ + 2 := by omega
        have h6 : (i:ℚ) ≤ (R.y1 - R.y0) / s + 2 := by
          have hfl := Int.floor_le ((R.y1 - R.y0) / s)
          calc (i:ℚ) ≤ ((⌊(R.y1 - R.y0) / s⌋ : ℤ) : ℚ) + 2 := by exact_mod_cast h5
            _ ≤ (R.y1 - R.y0) / s + 2 := by linarith
        have h7 : (i:ℚ) * s ≤ ((R.y1 - R.y0) / s + 2) * s :=
          mul_le_mul_of_nonneg_right h6 hs.le
        have h8 : ((R.y1 - R.y0) / s + 2) * s = (R.y1 - R.y0) + 2 * s := by
          field_simp
        nlinarith [h7, h8]
  rw [List.countP_congr hcong, countP_range_min]
  omega

/-- Invariant of the best-selection fold from a recorded pair onward: the
result is still a recorded pair, its count is the count of its angle, it is a
lower bound of everything scanned, and it is either the initial pair or the
first strictly better angle in the remaining list. -/
lemma foldl_scan_some (f : ℚ → ℕ) :
    ∀ (l : List ℚ) (ba : ℚ) (bc : ℕ), bc = f ba →
      ∃ r : ℚ × ℕ, List.foldl (scanStep f) (some (ba, bc)) l = some r ∧ r.2 = f r.1 ∧
        r.2 ≤ bc ∧ (∀ x ∈ l, r.2 ≤ f x) ∧
        (r = (ba, bc) ∨ ∃ l1 l2, l = l1 ++ r.1 :: l2 ∧ (∀ x ∈ l1, r.2 < f x) ∧ r.2 < bc) := by
  intro l
  induction l with
  | nil =>
    intro ba bc hb
    exact ⟨(ba, bc), rfl, by simpa using hb.symm ▸ rfl, le_refl _, by simp, Or.inl rfl⟩
  | cons a t ih =>
    intro ba bc hb
    by_cases hlt : f a < bc
    · have hstep : List.foldl (scanStep f) (some (ba, bc)) (a :: t) =
          List.foldl (scanStep f) (some (a, f a)) t := by
        simp [scanStep, hlt]
      obtain ⟨r, hr, hrf, hrle, hall, hdec⟩ := ih a (f a) rfl
      refine ⟨r, by rw [hstep]; exact hr, hrf, le_trans hrle (le_of_lt hlt), ?_, ?_⟩
      · intro x hx
        rcases List.mem_cons.mp hx with h | h
        · exact h ▸ hrle
        · exact hall x h
      · rcases hdec with heq | ⟨l1, l2, hl, hl1, hlt2⟩
        · right
          refine ⟨[], t, ?_, by simp, ?_⟩
          · simp [heq]
          · rw [heq]
            exact hlt
        · right
          refine ⟨a :: l1, l2, by simp [hl], ?_, lt_trans hlt2 hlt⟩
          intro x hx
          rcases List.mem_cons.mp hx with h | h
          · exact h ▸ lt_of_lt_of_le hlt2 (le_refl _)
          · exact hl1 x h
    · have hstep : List.foldl (scanStep f) (some (ba, bc)) (a :: t) =
          List.foldl (scanStep f) (some (ba, bc)) t := by
        simp [scanStep, hlt]
      obtain ⟨r, hr, hrf, hrle, hall, hdec⟩ := ih ba bc hb
      refine ⟨r, by rw [hstep]; exact hr, hrf, hrle, ?_, ?_⟩
      · intro x hx
        rcases List.mem_cons.mp hx with h | h
        · exact h ▸ le_trans hrle (not_lt.mp hlt)
        · exact hall x h
      · rcases hdec with heq | ⟨l1, l2, hl, hl1, hlt2⟩
        · exact Or.inl heq
        · right
          refine ⟨a :: l1, l2, by simp [hl], ?_, hlt2⟩
          intro x hx
          rcases List.mem_cons.mp hx with h | h
          · exact h ▸ lt_of_lt_of_le hlt2 (not_lt.mp hlt)
          · exact hl1 x h

/-- A recorded best with pass count zero is never replaced, since the strict
comparison `f a < 0` can never hold. -/
lemma foldl_scan_zero (f : ℚ → ℕ) :
    ∀ (l : List ℚ) (ba : ℚ), List.foldl (scanStep f) (some (ba, 0)) l = some (ba, 0) := by
  intro l
  induction l with
  | nil => intro ba; rfl
  | cons a t ih =>
    intro ba
    have hstep : scanStep f (some (ba, 0)) a = some (ba, 0) := by
      simp [scanStep]
    rw [List.foldl_cons, hstep]
    exact ih ba

/-- The Python remainder is nonnegative for a positive modulus. -/
lemma pyMod_nonneg (x m : ℚ) (hm : 0 < m) : 0 ≤ pyMod x m := by
  have hf := Int.floor_le (x / m)
  have h1 : m * ((⌊x / m⌋ : ℤ) : ℚ) ≤ m * (x / m) := mul_le_mul_of_nonneg_left hf hm.le
  have h2 : m * (x / m) = x := by field_simp
  unfold pyMod
  linarith

/-- The Python remainder is below a positive modulus. -/
lemma pyMod_lt (x m : ℚ) (hm : 0 < m) : pyMod x m < m := by
  have hf := Int.lt_floor_add_one (x / m)
  have h1 : m * (x / m) < m * (((⌊x / m⌋ : ℤ) : ℚ) + 1) := mul_lt_mul_of_pos_left hf hm
  have h2 : m * (x / m) = x := by field_simp
  unfold pyMod
  nlinarith

/-- Back-rotation undoes rotation exactly when the coefficient pair lies on
the unit circle. -/
lemma rotatePt_inv (c s : ℚ) (h : c ^ 2 + s ^ 2 = 1) (o p : ℚ × ℚ) :
    rotatePt c (-s) o (rotatePt c s o p) = p := by
  unfold rotatePt
  obtain ⟨p1, p2⟩ := p
  apply Prod.ext
  · simp only
    linear_combination (p1 - o.1) * h
  · simp only
    linear_combination (p2 - o.2) * h

/- ------------------------------------------------------------------ -/
/- Claim theorems.                                                     -/
/- ------------------------------------------------------------------ -/

/-- C1 (counterexample): the claim fails on the code.  The code's returned
swath line (app.py line 115) is only rotated back, never re-clipped against
the original field; with the numerically obtained rotation coefficients
`(c, s) = (1, 1/10)` (whose squares sum to more than 1, as the spec itself
warns the numeric round trip can), the concrete point `(101/10, -101/100)`
lies on the returned line but outside the original field `fieldRect`, so the
returned line is not bounded by the original field boundary, and the absent
re-clip would have changed the result. -/
theorem finalLine_not_subset_cx :
    ¬ (finalLine 1 (1 / 10) (0, 0) fieldRect 0 0 ⊆ fieldRect) ∧
      finalLineReclipped 1 (1 / 10) (0, 0) fieldRect 0 0 ≠
        finalLine 1 (1 / 10) (0, 0) fieldRect 0 0 := by
  have hq : ((101 : ℚ) / 10, -(101 : ℚ) / 100) ∈ finalLine 1 (1 / 10) (0, 0) fieldRect 0 0 := by
    refine ⟨((101 : ℚ) / 10, 0), ⟨⟨rfl, by norm_num, by norm_num⟩, ?_⟩, ?_⟩
    · refine ⟨((10 : ℚ), (-1 : ℚ)), ?_, ?_⟩
      · constructor
        · norm_num
        · norm_num
      · show rotatePt 1 (1 / 10) (0, 0) (10, -1) = ((101 : ℚ) / 10, 0)
        unfold rotatePt
        norm_num
    · show rotatePt 1 (-(1 / 10)) (0, 0) ((101 : ℚ) / 10, 0) = ((101 : ℚ) / 10, -(101 : ℚ) / 100)
      unfold rotatePt
      norm_num
  have hout : ((101 : ℚ) / 10, -(101 : ℚ) / 100) ∉ fieldRect := by
    intro hmem
    obtain ⟨-, h2, -, -⟩ := hmem
    norm_num at h2
  constructor
  · intro hsub
    exact hout (hsub hq)
  · intro heq
    have hmem : ((101 : ℚ) / 10, -(101 : ℚ) / 100) ∈
        finalLineReclipped 1 (1 / 10) (0, 0) fieldRect 0 0 := by
      rw [heq]
      exact hq
    exact hout hmem.2

/-- C1 (amended): the code does not re-clip the rotated-back segments; when
the rotation coefficient pair is exact (`c^2 + s^2 = 1`), every returned swath
line is nonetheless contained in the original field polygon, and the spec's
step-6 re-clip against the original field would be a no-op. -/
theorem finalLine_subset_exact (c s : ℚ) (o : ℚ × ℚ) (F : Set (ℚ × ℚ)) (cx y : ℚ)
    (h : c ^ 2 + s ^ 2 = 1) :
    finalLine c s o F cx y ⊆ F ∧
      finalLineReclipped c s o F cx y = finalLine c s o F cx y := by
  have hsub : finalLine c s o F cx y ⊆ F := by
    rintro q ⟨r, ⟨hline, ⟨p, hpF, hpr⟩⟩, hq⟩
    rw [← hq, ← hpr, rotatePt_inv c s h o p]
    exact hpF
  exact ⟨hsub, Set.inter_eq_left.mpr hsub⟩

/-- C1 (witness): the containment theorem applied to the exact coefficient
pair `(3/5, 4/5)` and the concrete field `fieldRect`. -/
theorem finalLine_subset_exact_witness :
    ((3 / 5 : ℚ) ^ 2 + (4 / 5 : ℚ) ^ 2 = 1) ∧
      (finalLine (3 / 5) (4 / 5) (0, 0) fieldRect 0 0 ⊆ fieldRect ∧
        finalLineReclipped (3 / 5) (4 / 5) (0, 0) fieldRect 0 0 =
          finalLine (3 / 5) (4 / 5) (0, 0) fieldRect 0 0) :=
  ⟨by norm_num, finalLine_subset_exact (3 / 5) (4 / 5) (0, 0) fieldRect 0 0 (by norm_num)⟩

/-- C2: the recorded best is replaced only on a strictly smaller pass count,
so a returned `(best_angle, best_pass_count)` has the minimal count over the
scan, everything before `best_angle` in scan order has a strictly larger
count, and in a sorted (ascending) scan order `best_angle` is the lowest angle
achieving the minimum. -/
theorem scanBest_earliest_min (l : List ℚ) (f : ℚ → ℕ) (a : ℚ) (c : ℕ)
    (h : scanBest l f = some (a, c)) :
    c = f a ∧ (∀ x ∈ l, c ≤ f x) ∧
      (∃ l1 l2, l = l1 ++ a :: l2 ∧ ∀ x ∈ l1, c < f x) ∧
      (l.Sorted (· ≤ ·) → ∀ x ∈ l, f x = c → a ≤ x) := by
  cases l with
  | nil => simp [scanBest] at h
  | cons a0 t =>
    have h0 : scanBest (a0 :: t) f = List.foldl (scanStep f) (some (a0, f a0)) t := by
      simp [scanBest, scanStep]
    obtain ⟨r, hr, hrf, hrle, hall, hdec⟩ := foldl_scan_some f t a0 (f a0) rfl
    rw [h0, hr] at h
    have hrac : r = (a, c) := by injection h
    subst hrac
    have hca : c = f a := hrf
    have hmin : ∀ x ∈ a0 :: t, c ≤ f x := by
      intro x hx
      rcases List.mem_cons.mp hx with hx0 | hxt
      · exact hx0 ▸ hrle
      · exact hall x hxt
    have hdecomp : ∃ l1 l2, a0 :: t = l1 ++ a :: l2 ∧ ∀ x ∈ l1, c < f x := by
      rcases hdec with heq | ⟨l1, l2, ht, hl1, hltc⟩
      · have ha0 : a = a0 := congrArg Prod.fst heq
        exact ⟨[], t, by simp [ha0], by simp⟩
      · refine ⟨a0 :: l1, l2, by simp [ht], ?_⟩
        intro x hx
        rcases List.mem_cons.mp hx with hx0 | hxl
        · exact hx0 ▸ hltc
        · exact hl1 x hxl
    refine ⟨hca, hmin, hdecomp, ?_⟩
    intro hs x hx hfx
    obtain ⟨l1, l2, hls, hl1⟩ := hdecomp
    rw [hls] at hx hs
    rcases List.mem_append.mp hx with hx1 | hx2
    · exact absurd hfx (by have := hl1 x hx1; omega)
    · rcases List.mem_cons.mp hx2 with hxa | hxl2
      · exact hxa ▸ le_refl a
      · have hp : List.Pairwise (· ≤ ·) (a :: l2) := (List.pairwise_append.mp hs).2.1
        exact (List.pairwise_cons.mp hp).1 x hxl2

/-- C2 (witness): on the sorted angle list `[0, 1, 2]` with counts `2, 1, 1`,
the scan records `(1, 1)` — the earliest (lowest) of the two tied minima. -/
theorem scanBest_earliest_min_witness :
    scanBest [0, 1, 2] (fun q => if q ≤ 0 then 2 else 1) = some (1, 1) ∧
      (1 : ℕ) = (if (1 : ℚ) ≤ 0 then 2 else 1) :=
  ⟨rfl, (scanBest_earliest_min [0, 1, 2] (fun q => if q ≤ 0 then 2 else 1) 1 1 rfl).1⟩

/-- C3: for positive spacing and a nonempty extent the sweep-line generation
terminates with the finite arithmetic progression that starts at
`yMin - 2*spacing`, steps by `spacing`, stays at or below `yMax + 2*spacing`
while the next step would exceed it, and has length at most
`⌈(yMax - yMin + 4*spacing)/spacing⌉ + 1`. -/
theorem sweep_lines_spec (yMin yMax s : ℚ) (hs : 0 < s) (hy : yMin ≤ yMax) :
    ∃ n : ℕ,
      sweep_lines yMin yMax s = (List.range n).map (fun i : ℕ => yMin - 2 * s + (i : ℚ) * s) ∧
      (sweep_lines yMin yMax s).head? = some (yMin - 2 * s) ∧
      (∀ z ∈ sweep_lines yMin yMax s, z ≤ yMax + 2 * s) ∧
      yMax + 2 * s < yMin - 2 * s + (n : ℚ) * s ∧
      (sweep_lines yMin yMax s).length ≤ (⌈(yMax - yMin + 4 * s) / s⌉).toNat + 1 := by
  have hK0 : (0:ℤ) ≤ ⌊(yMax - yMin) / s⌋ :=
    Int.floor_nonneg.mpr (div_nonneg (by linarith) hs.le)
  have hKle : ((⌊(yMax - yMin) / s⌋).toNat : ℚ) ≤ (yMax - yMin) / s := by
    have h1 : ((⌊(yMax - yMin) / s⌋).toNat : ℤ) = ⌊(yMax - yMin) / s⌋ := Int.toNat_of_nonneg hK0
    have h2 : ((⌊(yMax - yMin) / s⌋ : ℤ) : ℚ) ≤ (yMax - yMin) / s := Int.floor_le _
    exact_mod_cast h1 ▸ h2
  have hKgt : (yMax - yMin) / s < ((⌊(yMax - yMin) / s⌋).toNat : ℚ) + 1 := by
    have h1 : ((⌊(yMax - yMin) / s⌋).toNat : ℤ) = ⌊(yMax - yMin) / s⌋ := Int.toNat_of_nonneg hK0
    have h2 : (yMax - yMin) / s < ((⌊(yMax - yMin) / s⌋ : ℤ) : ℚ) + 1 := Int.lt_floor_add_one _
    exact_mod_cast h1 ▸ h2
  have hmul : ((yMax - yMin) / s) * s = yMax - yMin := div_mul_cancel₀ _ (ne_of_gt hs)
  refine ⟨stepCount s (yMax + 2 * s) (yMin - 2 * s), sweep_lines_eq yMin yMax s hs, ?_, ?_, ?_, ?_⟩
  · rw [sweep_lines_eq yMin yMax s hs, stepCount_start yMin yMax s hs hy,
      List.range_succ_eq_map, List.map_cons]
    simp
  · intro z hz
    rw [sweep_lines_eq yMin yMax s hs] at hz
    obtain ⟨i, hi, rfl⟩ := List.mem_map.mp hz
    have hiN : i < stepCount s (yMax + 2 * s) (yMin - 2 * s) := List.mem_range.mp hi
    rw [stepCount_start yMin yMax s hs hy] at hiN
    have hic : (i : ℚ) ≤ ((⌊(yMax - yMin) / s⌋).toNat : ℚ) + 4 := by
      have h9 : i ≤ (⌊(yMax - yMin) / s⌋).toNat + 4 := by omega
      exact_mod_cast h9
    have his : (i : ℚ) * s ≤ ((yMax - yMin) / s + 4) * s := by
      apply mul_le_mul_of_nonneg_right _ hs.le
      linarith
    nlinarith
  · rw [stepCount_start yMin yMax s hs hy]
    have hNc : ((((⌊(yMax - yMin) / s⌋).toNat + 5 : ℕ)) : ℚ) =
        ((⌊(yMax - yMin) / s⌋).toNat : ℚ) + 5 := by push_cast; ring
    rw [hNc]
    have his : ((yMax - yMin) / s + 4) * s < (((⌊(yMax - yMin) / s⌋).toNat : ℚ) + 5) * s := by
      apply mul_lt_mul_of_pos_right _ hs
      linarith
    nlinarith
  · rw [sweep_lines_eq yMin yMax s hs, List.length_map, List.length_range,
      stepCount_start yMin yMax s hs hy]
    have hceil : ⌈(yMax - yMin + 4 * s) / s⌉ = ⌈(yMax - yMin) / s⌉ + 4 := by
      have hdiv : (yMax - yMin + 4 * s) / s = (yMax - yMin) / s + 4 := by
        field_simp
      rw [hdiv]
      exact_mod_cast Int.ceil_add_int ((yMax - yMin) / s) 4
    have hfc : ⌊(yMax - yMin) / s⌋ ≤ ⌈(yMax - yMin) / s⌉ := Int.floor_le_ceil _
    rw [hceil]
    omega

/-- C3 (witness): the sweep specification applied to the extent `[0, 1]` with
spacing 1. -/
theorem sweep_lines_spec_witness :
    ((0 : ℚ) < 1 ∧ (0 : ℚ) ≤ 1) ∧ (sweep_lines 0 1 1).head? = some (0 - 2 * 1) :=
  ⟨⟨by norm_num, by norm_num⟩,
    ((sweep_lines_spec 0 1 1 (by norm_num) (by norm_num)).choose_spec).2.1⟩

/-- C4: with `machine_width = 0` the code does not fail with an
`InvalidParameter` error — there is no parameter validation at all (app.py
line 17) — and after the geometry kernel has already been invoked (rotate and
bounds, lines 86-87) the sweep while loop never advances (`y += 0`), so the
loop guard holds forever: every amount of fuel is consumed without reaching
the exit condition. -/
theorem sweepAux_zero_width_diverges (stop y : ℚ) (h : y ≤ stop) :
    ∀ fuel : ℕ, (sweepAux 0 stop fuel y).length = fuel := by
  intro fuel
  induction fuel with
  | zero => rfl
  | succ f ih =>
    simp only [sweepAux, if_pos h, add_zero, List.length_cons, ih]

/-- C4 (witness): the zero-width loop from height 0 with bound 1 consumes any
concrete fuel, here 7. -/
theorem sweepAux_zero_width_diverges_witness :
    ((0 : ℚ) ≤ 1) ∧ (sweepAux 0 1 7 0).length = 7 :=
  ⟨by norm_num, sweepAux_zero_width_diverges 1 0 (by norm_num) 7⟩

/-- C5 (counterexample): the claim fails on the code.  For the square field of
side 40 at a fixed angle, raising the machine width from 10 to 20 lowers the
pass count from 5 to 3, so the pass count is not monotonically non-decreasing
in the machine width. -/
theorem eval_passes_width_decrease_cx :
    (10 : ℚ) < 20 ∧ eval_passes square40 20 < eval_passes square40 10 := by
  have h10 : eval_passes square40 10 = 5 := by
    norm_num [eval_passes, clipped_of, clipRect, square40, sweep_lines, stepCount, sweepAux,
      ClippedSeg.isEmpty, pass_count]
  have h20 : eval_passes square40 20 = 3 := by
    norm_num [eval_passes, clipped_of, clipRect, square40, sweep_lines, stepCount, sweepAux,
      ClippedSeg.isEmpty, pass_count]
  rw [h10, h20]
  norm_num

/-- C5 (amended): for a fixed rectangular field at a fixed angle, increasing
`machine_width` never increases (and can strictly decrease) the pass count:
the count is `⌊height/width⌋ + 1`, antitone in the width. -/
theorem eval_passes_antitone (R : Rect) (w1 w2 : ℚ) (h1 : 0 < w1) (h12 : w1 ≤ w2)
    (hR : R.y0 ≤ R.y1) : eval_passes R w2 ≤ eval_passes R w1 := by
  have h2 : 0 < w2 := lt_of_lt_of_le h1 h12
  rw [eval_passes_eq R w1 h1 hR, eval_passes_eq R w2 h2 hR]
  have hdiv : (R.y1 - R.y0) / w2 ≤ (R.y1 - R.y0) / w1 := by
    apply div_le_div_of_nonneg_left (by linarith) h1 h12
  have hfl : ⌊(R.y1 - R.y0) / w2⌋ ≤ ⌊(R.y1 - R.y0) / w1⌋ := Int.floor_mono hdiv
  omega

/-- C5 (witness): the antitone theorem applied to the square of side 40 with
widths 10 and 20. -/
theorem eval_passes_antitone_witness :
    ((0 : ℚ) < 10 ∧ (10 : ℚ) ≤ 20 ∧ square40.y0 ≤ square40.y1) ∧
      eval_passes square40 20 ≤ eval_passes square40 10 :=
  ⟨⟨by norm_num, by norm_num, by norm_num [square40]⟩,
    eval_passes_antitone square40 10 20 (by norm_num) (by norm_num) (by norm_num [square40])⟩

/-- C6 (counterexample): the claim fails on the code.  For the square field of
side 40 with `machine_width = 10` and `current_heading = 0`, the
current-heading evaluation reports 5 passes, not 4: the sweep heights are
anchored at the rotated extent's minimum, so the five heights
0, 10, 20, 30, 40 all intersect the square (the two boundary heights meet its
horizontal edges in full segments, which count as passes). -/
theorem current_passes_square_ne_four : current_passes square40 10 ≠ 4 := by
  have h5 : current_passes square40 10 = 5 := by
    norm_num [current_passes, rotRect90, eval_passes, clipped_of, clipRect, square40,
      sweep_lines, stepCount, sweepAux, ClippedSeg.isEmpty, pass_count]
  omega

/-- C6 (amended): the current-heading evaluation for the square field of side
40 with `machine_width = 10` and `current_heading = 0` (rotation by the
adjusted angle 0 + 90 = 90 degrees, sweep, clip, count) reports a pass count
of exactly 5. -/
theorem current_passes_square_eq_five : current_passes square40 10 = 5 := by
  norm_num [current_passes, rotRect90, eval_passes, clipped_of, clipRect, square40,
    sweep_lines, stepCount, sweepAux, ClippedSeg.isEmpty, pass_count]

/-- C7 (counterexample): the claim fails on the code.  When every candidate
angle produces zero passes, the scan returns a recorded result with
`best_pass_count = 0` (the first candidate always replaces the initial
infinity, and 0 is never beaten), rather than signalling any
`NoCoverageFound` error — no such error exists in the code. -/
theorem scanBest_zero_passes_cx : scanBest [0, 1, 2] (fun _ => 0) = some (0, 0) := rfl

/-- C7 (amended): when every candidate angle yields zero passes, the scan
returns an ordinary result whose angle is the first scanned candidate and
whose pass count is 0; no degenerate-input error is signalled. -/
theorem scanBest_all_zero (angles : List ℚ) (f : ℚ → ℕ) (a0 : ℚ) (t : List ℚ)
    (hl : angles = a0 :: t) (hz : ∀ x ∈ angles, f x = 0) :
    scanBest angles f = some (a0, 0) := by
  subst hl
  have h0 : f a0 = 0 := hz a0 (by simp)
  have hfold : scanBest (a0 :: t) f = List.foldl (scanStep f) (some (a0, f a0)) t := by
    simp [scanBest, scanStep]
  rw [hfold, h0, foldl_scan_zero f t a0]

/-- C7 (witness): the all-zero scan on the concrete list `[0, 1]`. -/
theorem scanBest_all_zero_witness : scanBest [0, 1] (fun _ => 0) = some (0, 0) :=
  scanBest_all_zero [0, 1] (fun _ => 0) 0 [1] rfl (fun _ _ => rfl)

/-- C8: for every scan result, `heading_forward = (best_angle - 90) mod 360`,
`heading_reverse = (heading_forward + 180) mod 360`, and the two headings
differ by exactly 180 modulo 360. -/
theorem heading_forward_reverse_spec (a : ℚ) :
    optimized_heading_forward a = pyMod (a - 90) 360 ∧
      optimized_heading_reverse a = pyMod (optimized_heading_forward a + 180) 360 ∧
      ∃ k : ℤ, optimized_heading_reverse a - optimized_heading_forward a = 180 + 360 * k := by
  refine ⟨rfl, rfl, ⟨-⌊(optimized_heading_forward a + 180) / 360⌋, ?_⟩⟩
  unfold optimized_heading_reverse pyMod
  push_cast
  ring

/-- C9: the pass counter maps Empty to 0, a degenerate point to 0 (treated as
Empty), a single segment to 1 and a multi-segment of `n` parts to `n`, and
the total pass count is the sum of these contributions over all clipped
results. -/
theorem pass_count_spec (l : List ClippedSeg) :
    pass_count l = (l.map segContrib).sum ∧
      segContrib ClippedSeg.empty = 0 ∧ segContrib ClippedSeg.point = 0 ∧
      segContrib ClippedSeg.single = 1 ∧ (∀ n, segContrib (ClippedSeg.multi n) = n) ∧
      segContrib ClippedSeg.point = segContrib ClippedSeg.empty := by
  refine ⟨?_, rfl, rfl, rfl, fun n => rfl, rfl⟩
  induction l with
  | nil => rfl
  | cons g t ih => cases g <;> simp [pass_count, segContrib, ih]

/-- C10: the compass-label lookup is total: for every degree input the index
`int((deg % 360)/45 + 0.5)` is nonnegative and within the bounds of the
nine-entry table, so `dirs[ix]` never fails. -/
theorem heading_label_total (deg : ℚ) :
    0 ≤ headingIx deg ∧ (headingIx deg).toNat < dirs.length ∧ (heading_label deg).isSome := by
  have hm : (0:ℚ) < 360 := by norm_num
  have h0 : 0 ≤ pyMod deg 360 := pyMod_nonneg deg 360 hm
  have h1 : pyMod deg 360 < 360 := pyMod_lt deg 360 hm
  have hlo : (0:ℤ) ≤ headingIx deg := by
    apply Int.floor_nonneg.mpr
    have hnn : (0:ℚ) ≤ pyMod deg 360 / 45 := by positivity
    linarith
  have hhi : headingIx deg < 9 := by
    apply Int.floor_lt.mpr
    push_cast
    have hdb : pyMod deg 360 / 45 < 8 := by
      rw [div_lt_iff₀ (by norm_num : (0:ℚ) < 45)]
      linarith
    linarith
  have hlen : dirs.length = 9 := by rfl
  have hlt : (headingIx deg).toNat < dirs.length := by
    rw [hlen]
    omega
  refine ⟨hlo, hlt, ?_⟩
  rw [heading_label, List.get?_eq_get hlt]
  rfl
